import Mathlib

/-!
# Codex-TTS2: the text normalizer and the converter's input check

A shallow embedding of `TextNormalizer::normalize`
(`src/native/src/text_normalizer.cpp`) together with the UTF-8 notions its
contract is phrased in, and a model of the tokenizer of
`GraphemeToPhoneme::convert`, which the sources only declare.

A `std::string` / `std::string_view` is a `List Nat` of byte values; every
statement that needs the bytes to be real bytes gets that from UTF-8
well-formedness, the others hold for arbitrary lists.
-/

namespace codex

/-! ## UTF-8 (Unicode Standard, Table 3-7: well-formed byte sequences) -/

/-- Unicode scalar values: code points below 0x110000 that are not surrogates. -/
def isScalar (c : Nat) : Prop := c < 0xD800 ∨ (0xE000 ≤ c ∧ c < 0x110000)

instance instDecidableIsScalar (c : Nat) : Decidable (isScalar c) :=
  inferInstanceAs (Decidable (c < 0xD800 ∨ (0xE000 ≤ c ∧ c < 0x110000)))

/-- Continuation bytes `80..BF`. -/
def isCont (b : Nat) : Prop := 0x80 ≤ b ∧ b ≤ 0xBF

instance instDecidableIsCont (b : Nat) : Decidable (isCont b) :=
  inferInstanceAs (Decidable (0x80 ≤ b ∧ b ≤ 0xBF))

/-- The second byte of a three or four byte sequence, whose range depends on
the lead byte (this is what excludes overlong forms, surrogates and values
above 0x10FFFF). -/
def isSecond (b0 b1 : Nat) : Prop :=
  if b0 = 0xE0 then 0xA0 ≤ b1 ∧ b1 ≤ 0xBF
  else if b0 = 0xED then 0x80 ≤ b1 ∧ b1 ≤ 0x9F
  else if b0 = 0xF0 then 0x90 ≤ b1 ∧ b1 ≤ 0xBF
  else if b0 = 0xF4 then 0x80 ≤ b1 ∧ b1 ≤ 0x8F
  else 0x80 ≤ b1 ∧ b1 ≤ 0xBF

instance instDecidableIsSecond (b0 b1 : Nat) : Decidable (isSecond b0 b1) := by
  unfold isSecond
  exact inferInstance

/-- Strict UTF-8 decoder: the code points of a well-formed byte string, `none`
for an ill-formed one. -/
def utf8Decode : List Nat → Option (List Nat)
  | [] => some []
  | b0 :: t0 =>
    if b0 < 0x80 then (utf8Decode t0).map (fun cs => b0 :: cs)
    else
      match t0 with
      | [] => none
      | b1 :: t1 =>
        if 0xC2 ≤ b0 ∧ b0 ≤ 0xDF then
          if isCont b1 then
            (utf8Decode t1).map (fun cs => ((b0 - 0xC0) * 64 + (b1 - 0x80)) :: cs)
          else none
        else
          match t1 with
          | [] => none
          | b2 :: t2 =>
            if 0xE0 ≤ b0 ∧ b0 ≤ 0xEF then
              if isSecond b0 b1 ∧ isCont b2 then
                (utf8Decode t2).map
                  (fun cs => ((b0 - 0xE0) * 4096 + (b1 - 0x80) * 64 + (b2 - 0x80)) :: cs)
              else none
            else
              match t2 with
              | [] => none
              | b3 :: t3 =>
                if 0xF0 ≤ b0 ∧ b0 ≤ 0xF4 then
                  if isSecond b0 b1 ∧ isCont b2 ∧ isCont b3 then
                    (utf8Decode t3).map
                      (fun cs =>
                        ((b0 - 0xF0) * 262144 + (b1 - 0x80) * 4096 + (b2 - 0x80) * 64
                          + (b3 - 0x80)) :: cs)
                  else none
                else none

/-- UTF-8 encoding of one scalar value. -/
def utf8Encode (c : Nat) : List Nat :=
  if c < 0x80 then [c]
  else if c < 0x800 then [0xC0 + c / 64, 0x80 + c % 64]
  else if c < 0x10000 then [0xE0 + c / 4096, 0x80 + c / 64 % 64, 0x80 + c % 64]
  else [0xF0 + c / 262144, 0x80 + c / 4096 % 64, 0x80 + c / 64 % 64, 0x80 + c % 64]

/-- UTF-8 encoding of a sequence of scalar values. -/
def utf8EncodeAll : List Nat → List Nat
  | [] => []
  | c :: cs => utf8Encode c ++ utf8EncodeAll cs

/-- The code point U+0640 ARABIC TATWEEL; its UTF-8 encoding is `D9 80`. -/
def tatweel : Nat := 0x640

/-- Decimal digits: ASCII U+0030..U+0039 and Arabic-Indic U+0660..U+0669. -/
def isDigit (c : Nat) : Bool :=
  (0x30 ≤ c && c ≤ 0x39) || (0x660 ≤ c && c ≤ 0x669)

/-- The Arabic Presentation Forms blocks, A (U+FB50..U+FDFF) and
B (U+FE70..U+FEFF). -/
def isPresentationForm (c : Nat) : Bool :=
  (0xFB50 ≤ c && c ≤ 0xFDFF) || (0xFE70 ≤ c && c ≤ 0xFEFF)

namespace TextNormalizer

/-- The `for` loop of `TextNormalizer::normalize`, from index `i` with the
bytes pushed so far in `result`.  The read of `input[i + 1]` sits behind the
test `i + 1 < input.size()`, as `&&` evaluates left to right.  In the source
`++i` runs twice on the tatweel branch (once in the body, once as the loop
increment); `i + 1 < input.size()` keeps both below the range of `size_t`. -/
def normalizeLoop (input : List Nat) (i : Nat) (result : List Nat) : List Nat :=
  if h : i < input.length then
    if h1 : i + 1 < input.length then
      if input[i] = 0xD9 ∧ input[i + 1] = 0x80 then
        normalizeLoop input (i + 1 + 1) result
      else
        normalizeLoop input (i + 1) (result ++ [input[i]])
    else
      normalizeLoop input (i + 1) (result ++ [input[i]])
  else
    result
termination_by input.length - i

/-- Embedding of `TextNormalizer::normalize`: start the loop at index 0 with an
empty `result`. -/
def normalize (input : List Nat) : List Nat :=
  normalizeLoop input 0 []

/-- What can go wrong when `normalize` reads its input. -/
inductive Fault where
  | outOfBounds : Fault
  deriving DecidableEq, Repr

/-- A read `input[i]` that faults when `i` is not below `input.size()`. -/
def readAt (input : List Nat) (i : Nat) : Except Fault Nat :=
  match input[i]? with
  | some b => Except.ok b
  | none => Except.error Fault.outOfBounds

/-- The loop of `normalize` with every read of `input` made through `readAt`,
in the order the source evaluates them: `input[i]` only after
`i + 1 < input.size()`, `input[i + 1]` only after `input[i] == 0xD9`, and
`input[i]` again for `push_back`. -/
def normalizeLoopChecked (input : List Nat) (i : Nat) (result : List Nat) :
    Except Fault (List Nat) :=
  if i < input.length then
    if i + 1 < input.length then
      match readAt input i with
      | Except.error e => Except.error e
      | Except.ok b0 =>
        if b0 = 0xD9 then
          match readAt input (i + 1) with
          | Except.error e => Except.error e
          | Except.ok b1 =>
            if b1 = 0x80 then normalizeLoopChecked input (i + 1 + 1) result
            else
              match readAt input i with
              | Except.error e => Except.error e
              | Except.ok b => normalizeLoopChecked input (i + 1) (result ++ [b])
        else
          match readAt input i with
          | Except.error e => Except.error e
          | Except.ok b => normalizeLoopChecked input (i + 1) (result ++ [b])
    else
      match readAt input i with
      | Except.error e => Except.error e
      | Except.ok b => normalizeLoopChecked input (i + 1) (result ++ [b])
  else
    Except.ok result
termination_by input.length - i

/-- The body of `normalize` with bounds-checked reads. -/
def normalizeChecked (input : List Nat) : Except Fault (List Nat) :=
  normalizeLoopChecked input 0 []

/-- The loop read as a recursion on the bytes still to be scanned
(`input[i..]`): a leading `D9 80` is skipped, any other byte is kept.
`normalize_eq_skipTatweel` proves that `normalize` computes this. -/
def skipTatweel : List Nat → List Nat
  | [] => []
  | [b] => [b]
  | b0 :: b1 :: rest =>
    if b0 = 0xD9 ∧ b1 = 0x80 then skipTatweel rest
    else b0 :: skipTatweel (b1 :: rest)

/-- The relation "`y` is `x` with some adjacent `D9 80` pairs erased and every
other byte kept, in order". -/
inductive TatweelErased : List Nat → List Nat → Prop where
  | done : TatweelErased [] []
  | keep (b : Nat) {x y : List Nat} : TatweelErased x y → TatweelErased (b :: x) (b :: y)
  | skip {x y : List Nat} : TatweelErased x y → TatweelErased (0xD9 :: 0x80 :: x) y

end TextNormalizer

/-- The number of positions `i` with `x[i] = 0xD9` and `x[i + 1] = 0x80`. -/
def pairCount (x : List Nat) : Nat :=
  (List.range x.length).countP
    (fun i => decide (x[i]? = some 0xD9 ∧ x[i + 1]? = some 0x80))

/-! ## The grapheme-to-phoneme converter

`src/native/include/codex/g2p.h` declares `GraphemeToPhoneme::convert`; its body
is not among the sources, so the part of it the contract speaks of is modelled
from the specification (§4.2, §7). -/

namespace GraphemeToPhoneme

/-- Modelled from the spec: the classes of code points the tokenizer of
`convert` (whose body is missing from the sources) tells apart: a base
consonant or vowel letter, a combining mark (fatha, kasra, damma, sukun,
shadda, tanween marks, hamza marks), anything else (whitespace and the like,
which keeps the word boundaries). -/
inductive CharClass where
  | baseLetter : CharClass
  | diacritic : CharClass
  | other : CharClass
  deriving DecidableEq, Repr

/-- Modelled from the spec: the one way `convert` fails (§7), its body being
missing from the sources: a structurally invalid diacritic/letter
combination. -/
inductive ConvertError where
  | MalformedInputError : ConvertError
  deriving DecidableEq, Repr

/-- Modelled from the spec: a graphemic unit of §4.2 step 1, for the missing
body of `convert`: a base letter with the combining marks that follow it, or a
code point that is no letter (a word boundary). -/
inductive GraphemicUnit where
  | cluster (base : Nat) (marks : List Nat) : GraphemicUnit
  | boundary (c : Nat) : GraphemicUnit
  deriving DecidableEq, Repr

/-- Modelled from the spec: the unit an open cluster becomes when the
tokenizer of the missing body of `convert` closes it. -/
def closeCluster : Option (Nat × List Nat) → List GraphemicUnit
  | none => []
  | some (b, ms) => [GraphemicUnit.cluster b ms]

/-- Modelled from the spec: what the tokenizer of the missing body of `convert`
does with a combining mark: it joins the cluster that is still open; with no
cluster open it has no base letter, which is a `MalformedInputError`. -/
def attachMark (cur : Option (Nat × List Nat)) (c : Nat) :
    Except ConvertError (Option (Nat × List Nat)) :=
  match cur with
  | none => Except.error ConvertError.MalformedInputError
  | some (b, ms) => Except.ok (some (b, ms ++ [c]))

/-- Modelled from the spec: step 1 of the missing body of `convert`, "segment
the letter stream into base-letter + diacritic clusters (a base consonant/vowel
letter optionally followed by combining marks)", scanning left to right with
the cluster that is still open. -/
def tokenizeFrom (classify : Nat → CharClass) :
    Option (Nat × List Nat) → List Nat → Except ConvertError (List GraphemicUnit)
  | cur, [] => Except.ok (closeCluster cur)
  | cur, c :: rest =>
    match classify c with
    | CharClass.diacritic =>
      match attachMark cur c with
      | Except.error e => Except.error e
      | Except.ok cur1 => tokenizeFrom classify cur1 rest
    | CharClass.baseLetter =>
      match tokenizeFrom classify (some (c, [])) rest with
      | Except.error e => Except.error e
      | Except.ok us => Except.ok (closeCluster cur ++ us)
    | CharClass.other =>
      match tokenizeFrom classify none rest with
      | Except.error e => Except.error e
      | Except.ok us => Except.ok (closeCluster cur ++ GraphemicUnit.boundary c :: us)

/-- Modelled from the spec: `convert(text, pausal)` of §4.2, whose body is
missing from the sources.  The text is taken as its code points (it is
NormalizedText, well-formed UTF-8 by contract).  Tokenization comes first; the
passes that follow it (gemination, hamza resolution, taa marbuta, tanween,
sun/moon assimilation, emphatic spreading, pausal form), whose tables the spec
leaves to the implementer, are the parameter `passes`, which may fail too (a
hamza mark on an unsupported carrier).  The result is either the full sequence
or an error, never both. -/
def convert {Token : Type} (classify : Nat → CharClass)
    (passes : List GraphemicUnit → Bool → Except ConvertError (List Token))
    (text : List Nat) (pausal : Bool) : Except ConvertError (List Token) :=
  match tokenizeFrom classify none text with
  | Except.error e => Except.error e
  | Except.ok units => passes units pausal

/-- Modelled from the spec: "the input contains a diacritic with no preceding
base letter" (the input of the missing body of `convert`): a run of combining
marks ending in the mark `d` that starts the text or follows a code point that
is no letter. -/
def OrphanDiacritic (classify : Nat → CharClass) (text : List Nat) : Prop :=
  ∃ (before run : List Nat) (d : Nat) (after : List Nat),
    text = before ++ run ++ d :: after
      ∧ (∀ m ∈ run, classify m = CharClass.diacritic)
      ∧ classify d = CharClass.diacritic
      ∧ ∀ p ∈ before.getLast?, classify p = CharClass.other

/-- Modelled from the spec: one classification for the missing body of
`convert`, the Arabic letters (U+0621..U+063A, U+0641..U+064A) and the marks the
spec names at their Unicode code points: tanween, fatha, damma, kasra, shadda,
sukun (U+064B..U+0652) and the hamza marks (U+0654, U+0655).  The theorems
hold for every classification. -/
def arabicClass (c : Nat) : CharClass :=
  if (0x64B ≤ c ∧ c ≤ 0x652) ∨ c = 0x654 ∨ c = 0x655 then CharClass.diacritic
  else if (0x621 ≤ c ∧ c ≤ 0x63A) ∨ (0x641 ≤ c ∧ c ≤ 0x64A) then CharClass.baseLetter
  else CharClass.other

end GraphemeToPhoneme

/-! ## The loop computes `skipTatweel` -/

theorem skipTatweel_cons_of_ne (b : Nat) (rest : List Nat)
    (h : ¬ (b = 0xD9 ∧ rest.head? = some 0x80)) :
    TextNormalizer.skipTatweel (b :: rest) = b :: TextNormalizer.skipTatweel rest := by
  cases rest with
  | nil => simp [TextNormalizer.skipTatweel]
  | cons b1 t =>
    have h' : ¬ (b = 0xD9 ∧ b1 = 0x80) := by simpa using h
    simp only [TextNormalizer.skipTatweel, if_neg h']

theorem normalizeLoop_eq (input : List Nat) (i : Nat) (result : List Nat) :
    TextNormalizer.normalizeLoop input i result
      = result ++ TextNormalizer.skipTatweel (input.drop i) := by
  induction i, result using TextNormalizer.normalizeLoop.induct input with
  | case1 i result h h1 hp ih =>
    rw [TextNormalizer.normalizeLoop, dif_pos h, dif_pos h1, if_pos hp, ih]
    have e1 : input.drop i = input[i] :: input[i + 1] :: input.drop (i + 1 + 1) := by
      rw [List.drop_eq_getElem_cons h, List.drop_eq_getElem_cons h1]
    rw [e1, hp.1, hp.2]
    simp [TextNormalizer.skipTatweel]
  | case2 i result h h1 hp ih =>
    rw [TextNormalizer.normalizeLoop, dif_pos h, dif_pos h1, if_neg hp, ih]
    have e1 : input.drop i = input[i] :: input[i + 1] :: input.drop (i + 1 + 1) := by
      rw [List.drop_eq_getElem_cons h, List.drop_eq_getElem_cons h1]
    have e2 : input.drop (i + 1) = input[i + 1] :: input.drop (i + 1 + 1) :=
      List.drop_eq_getElem_cons h1
    rw [e1, e2]
    simp only [TextNormalizer.skipTatweel, if_neg hp, List.append_assoc, List.singleton_append]
  | case3 i result h h1 ih =>
    rw [TextNormalizer.normalizeLoop, dif_pos h, dif_neg h1, ih]
    have e1 : input.drop i = [input[i]] := by
      rw [List.drop_eq_getElem_cons h, List.drop_eq_nil_of_le (by omega)]
    rw [e1, List.drop_eq_nil_of_le (by omega)]
    simp [TextNormalizer.skipTatweel]
  | case4 i result h =>
    rw [TextNormalizer.normalizeLoop, dif_neg h, List.drop_eq_nil_of_le (by omega)]
    simp [TextNormalizer.skipTatweel]

theorem normalize_eq_skipTatweel (input : List Nat) :
    TextNormalizer.normalize input = TextNormalizer.skipTatweel input := by
  simp [TextNormalizer.normalize, normalizeLoop_eq]

/-! ## UTF-8: decoding and encoding are inverse -/

theorem utf8Decode_one (b0 : Nat) (t : List Nat) (h0 : b0 < 0x80) :
    utf8Decode (b0 :: t) = (utf8Decode t).map (fun cs => b0 :: cs) := by
  rw [utf8Decode.eq_def]
  simp only [if_pos h0]

theorem utf8Decode_two (b0 b1 : Nat) (t : List Nat) (h0 : ¬ b0 < 0x80)
    (h1 : 0xC2 ≤ b0 ∧ b0 ≤ 0xDF) :
    utf8Decode (b0 :: b1 :: t)
      = if isCont b1 then
          (utf8Decode t).map (fun cs => ((b0 - 0xC0) * 64 + (b1 - 0x80)) :: cs)
        else none := by
  rw [utf8Decode.eq_def]
  simp only [if_neg h0, if_pos h1]

theorem utf8Decode_three (b0 b1 b2 : Nat) (t : List Nat) (h0 : ¬ b0 < 0x80)
    (h1 : ¬ (0xC2 ≤ b0 ∧ b0 ≤ 0xDF)) (h2 : 0xE0 ≤ b0 ∧ b0 ≤ 0xEF) :
    utf8Decode (b0 :: b1 :: b2 :: t)
      = if isSecond b0 b1 ∧ isCont b2 then
          (utf8Decode t).map
            (fun cs => ((b0 - 0xE0) * 4096 + (b1 - 0x80) * 64 + (b2 - 0x80)) :: cs)
        else none := by
  rw [utf8Decode.eq_def]
  simp only [if_neg h0, if_neg h1, if_pos h2]

theorem utf8Decode_four (b0 b1 b2 b3 : Nat) (t : List Nat) (h0 : ¬ b0 < 0x80)
    (h1 : ¬ (0xC2 ≤ b0 ∧ b0 ≤ 0xDF)) (h2 : ¬ (0xE0 ≤ b0 ∧ b0 ≤ 0xEF))
    (h3 : 0xF0 ≤ b0 ∧ b0 ≤ 0xF4) :
    utf8Decode (b0 :: b1 :: b2 :: b3 :: t)
      = if isSecond b0 b1 ∧ isCont b2 ∧ isCont b3 then
          (utf8Decode t).map
            (fun cs =>
              ((b0 - 0xF0) * 262144 + (b1 - 0x80) * 4096 + (b2 - 0x80) * 64 + (b3 - 0x80)) :: cs)
        else none := by
  rw [utf8Decode.eq_def]
  simp only [if_neg h0, if_neg h1, if_neg h2, if_pos h3]

theorem utf8Decode_sound (x : List Nat) :
    ∀ cps, utf8Decode x = some cps → utf8EncodeAll cps = x ∧ ∀ c ∈ cps, isScalar c := by
  induction x using utf8Decode.induct with
  | case1 =>
    intro cps h
    simp [utf8Decode] at h
    subst h
    simp [utf8EncodeAll]
  | case2 b0 t0 h0 ih =>
    intro cps h
    simp only [utf8Decode_one b0 t0 h0, Option.map_eq_some'] at h
    obtain ⟨cs, hcs, rfl⟩ := h
    obtain ⟨e, s⟩ := ih cs hcs
    refine ⟨?_, ?_⟩
    · simp [utf8EncodeAll, utf8Encode, h0, e]
    · intro c hc
      rcases List.mem_cons.1 hc with hc | hc
      · rw [hc]; unfold isScalar; omega
      · exact s c hc
  | case3 b0 h0 => intro cps h; simp [utf8Decode.eq_2, h0] at h
  | case4 b0 h0 b1 t1 h1 hc1 ih =>
    intro cps h
    simp only [utf8Decode_two b0 b1 t1 h0 h1, if_pos hc1, Option.map_eq_some'] at h
    obtain ⟨cs, hcs, rfl⟩ := h
    obtain ⟨e, s⟩ := ih cs hcs
    unfold isCont at hc1
    refine ⟨?_, ?_⟩
    · have a : ¬ ((b0 - 0xC0) * 64 + (b1 - 0x80) < 0x80) := by omega
      have b : (b0 - 0xC0) * 64 + (b1 - 0x80) < 0x800 := by omega
      have e0 : 0xC0 + ((b0 - 0xC0) * 64 + (b1 - 0x80)) / 64 = b0 := by omega
      have e1 : 0x80 + ((b0 - 0xC0) * 64 + (b1 - 0x80)) % 64 = b1 := by omega
      simp only [utf8EncodeAll, utf8Encode, if_neg a, if_pos b, e0, e1, e, List.cons_append,
        List.nil_append]
    · intro c hc
      rcases List.mem_cons.1 hc with hc | hc
      · rw [hc]; unfold isScalar; omega
      · exact s c hc
  | case5 b0 h0 b1 t1 h1 hc1 =>
    intro cps h; simp [utf8Decode_two b0 b1 t1 h0 h1, hc1] at h
  | case6 b0 h0 b1 h1 => intro cps h; rw [utf8Decode.eq_def] at h; simp [h0, h1] at h
  | case7 b0 h0 b1 h1 b2 t2 h2 hc ih =>
    intro cps h
    simp only [utf8Decode_three b0 b1 b2 t2 h0 h1 h2, if_pos hc, Option.map_eq_some'] at h
    obtain ⟨cs, hcs, rfl⟩ := h
    obtain ⟨e, s⟩ := ih cs hcs
    obtain ⟨hs, hc2⟩ := hc
    unfold isCont at hc2
    have hb1 : 0x80 ≤ b1 ∧ b1 ≤ 0xBF ∧ (b0 = 0xE0 → 0xA0 ≤ b1) ∧ (b0 = 0xED → b1 ≤ 0x9F) := by
      unfold isSecond at hs
      split_ifs at hs <;> omega
    refine ⟨?_, ?_⟩
    · have a : ¬ ((b0 - 0xE0) * 4096 + (b1 - 0x80) * 64 + (b2 - 0x80) < 0x80) := by omega
      have b : ¬ ((b0 - 0xE0) * 4096 + (b1 - 0x80) * 64 + (b2 - 0x80) < 0x800) := by omega
      have c : (b0 - 0xE0) * 4096 + (b1 - 0x80) * 64 + (b2 - 0x80) < 0x10000 := by omega
      have e0 : 0xE0 + ((b0 - 0xE0) * 4096 + (b1 - 0x80) * 64 + (b2 - 0x80)) / 4096 = b0 := by
        omega
      have e1 : 0x80 + ((b0 - 0xE0) * 4096 + (b1 - 0x80) * 64 + (b2 - 0x80)) / 64 % 64 = b1 := by
        omega
      have e2 : 0x80 + ((b0 - 0xE0) * 4096 + (b1 - 0x80) * 64 + (b2 - 0x80)) % 64 = b2 := by
        omega
      simp only [utf8EncodeAll, utf8Encode, if_neg a, if_neg b, if_pos c, e0, e1, e2, e,
        List.cons_append, List.nil_append]
    · intro c hc
      rcases List.mem_cons.1 hc with hc | hc
      · rw [hc]; unfold isScalar; omega
      · exact s c hc
  | case8 b0 h0 b1 h1 b2 t2 h2 hc =>
    intro cps h; simp [utf8Decode_three b0 b1 b2 t2 h0 h1 h2, hc] at h
  | case9 b0 h0 b1 h1 b2 h2 => intro cps h; rw [utf8Decode.eq_def] at h; simp [h0, h1, h2] at h
  | case10 b0 h0 b1 h1 b2 h2 b3 t3 h3 hc ih =>
    intro cps h
    simp only [utf8Decode_four b0 b1 b2 b3 t3 h0 h1 h2 h3, if_pos hc, Option.map_eq_some'] at h
    obtain ⟨cs, hcs, rfl⟩ := h
    obtain ⟨e, s⟩ := ih cs hcs
    obtain ⟨hs, hc2, hc3⟩ := hc
    unfold isCont at hc2 hc3
    have hb1 : 0x80 ≤ b1 ∧ b1 ≤ 0xBF ∧ (b0 = 0xF0 → 0x90 ≤ b1) ∧ (b0 = 0xF4 → b1 ≤ 0x8F) := by
      unfold isSecond at hs
      split_ifs at hs <;> omega
    refine ⟨?_, ?_⟩
    · have a : ¬ ((b0 - 0xF0) * 262144 + (b1 - 0x80) * 4096 + (b2 - 0x80) * 64 + (b3 - 0x80)
          < 0x80) := by omega
      have b : ¬ ((b0 - 0xF0) * 262144 + (b1 - 0x80) * 4096 + (b2 - 0x80) * 64 + (b3 - 0x80)
          < 0x800) := by omega
      have c : ¬ ((b0 - 0xF0) * 262144 + (b1 - 0x80) * 4096 + (b2 - 0x80) * 64 + (b3 - 0x80)
          < 0x10000) := by omega
      have e0 : 0xF0 + ((b0 - 0xF0) * 262144 + (b1 - 0x80) * 4096 + (b2 - 0x80) * 64
          + (b3 - 0x80)) / 262144 = b0 := by omega
      have e1 : 0x80 + ((b0 - 0xF0) * 262144 + (b1 - 0x80) * 4096 + (b2 - 0x80) * 64
          + (b3 - 0x80)) / 4096 % 64 = b1 := by omega
      have e2 : 0x80 + ((b0 - 0xF0) * 262144 + (b1 - 0x80) * 4096 + (b2 - 0x80) * 64
          + (b3 - 0x80)) / 64 % 64 = b2 := by omega
      have e3 : 0x80 + ((b0 - 0xF0) * 262144 + (b1 - 0x80) * 4096 + (b2 - 0x80) * 64
          + (b3 - 0x80)) % 64 = b3 := by omega
      simp only [utf8EncodeAll, utf8Encode, if_neg a, if_neg b, if_neg c, e0, e1, e2, e3, e,
        List.cons_append, List.nil_append]
    · intro c hc
      rcases List.mem_cons.1 hc with hc | hc
      · rw [hc]; unfold isScalar; omega
      · exact s c hc
  | case11 b0 h0 b1 h1 b2 h2 b3 t3 h3 hc =>
    intro cps h; simp [utf8Decode_four b0 b1 b2 b3 t3 h0 h1 h2 h3, hc] at h
  | case12 b0 h0 b1 h1 b2 h2 b3 t3 h3 =>
    intro cps h; rw [utf8Decode.eq_def] at h; simp [h0, h1, h2, h3] at h

theorem utf8Decode_encode_append (c : Nat) (hc : isScalar c) (rest : List Nat) :
    utf8Decode (utf8Encode c ++ rest) = (utf8Decode rest).map (fun cs => c :: cs) := by
  unfold isScalar at hc
  unfold utf8Encode
  split_ifs with h1 h2 h3
  · exact utf8Decode_one c rest h1
  · have hk : isCont (0x80 + c % 64) := by unfold isCont; omega
    have e : (0xC0 + c / 64 - 0xC0) * 64 + (0x80 + c % 64 - 0x80) = c := by omega
    simp only [List.cons_append, List.nil_append]
    rw [utf8Decode_two _ _ _ (by omega) (by omega), if_pos hk, e]
  · have hs : isSecond (0xE0 + c / 4096) (0x80 + c / 64 % 64) := by
      unfold isSecond
      split_ifs <;> omega
    have hk : isCont (0x80 + c % 64) := by unfold isCont; omega
    have e : (0xE0 + c / 4096 - 0xE0) * 4096 + (0x80 + c / 64 % 64 - 0x80) * 64
        + (0x80 + c % 64 - 0x80) = c := by omega
    simp only [List.cons_append, List.nil_append]
    rw [utf8Decode_three _ _ _ _ (by omega) (by omega) (by omega), if_pos ⟨hs, hk⟩, e]
  · have hs : isSecond (0xF0 + c / 262144) (0x80 + c / 4096 % 64) := by
      unfold isSecond
      split_ifs <;> omega
    have hk2 : isCont (0x80 + c / 64 % 64) := by unfold isCont; omega
    have hk3 : isCont (0x80 + c % 64) := by unfold isCont; omega
    have e : (0xF0 + c / 262144 - 0xF0) * 262144 + (0x80 + c / 4096 % 64 - 0x80) * 4096
        + (0x80 + c / 64 % 64 - 0x80) * 64 + (0x80 + c % 64 - 0x80) = c := by omega
    simp only [List.cons_append, List.nil_append]
    rw [utf8Decode_four _ _ _ _ _ (by omega) (by omega) (by omega) (by omega),
      if_pos ⟨hs, hk2, hk3⟩, e]

theorem utf8Decode_encodeAll (cps : List Nat) (h : ∀ c ∈ cps, isScalar c) :
    utf8Decode (utf8EncodeAll cps) = some cps := by
  induction cps with
  | nil => rfl
  | cons c cs ih =>
    have hcs : ∀ d ∈ cs, isScalar d := fun d hd => h d (List.mem_cons_of_mem c hd)
    rw [utf8EncodeAll, utf8Decode_encode_append c (h c (List.mem_cons_self c cs)), ih hcs]
    rfl

/-! ## What the scan does to an encoded code point -/

theorem skipTatweel_encode_append (c : Nat) (rest : List Nat) :
    TextNormalizer.skipTatweel (utf8Encode c ++ rest)
      = (if c = tatweel then [] else utf8Encode c) ++ TextNormalizer.skipTatweel rest := by
  unfold tatweel
  by_cases hc : c = 0x640
  · subst hc
    simp [utf8Encode, TextNormalizer.skipTatweel]
  · rw [if_neg hc]
    unfold utf8Encode
    split_ifs with h1 h2 h3
    · simp only [List.cons_append, List.nil_append]
      rw [skipTatweel_cons_of_ne _ _ (by omega)]
    · simp only [List.cons_append, List.nil_append]
      rw [skipTatweel_cons_of_ne _ _ (by simp only [List.head?_cons, Option.some.injEq]; omega),
        skipTatweel_cons_of_ne _ _ (by omega)]
    · simp only [List.cons_append, List.nil_append]
      rw [skipTatweel_cons_of_ne _ _ (by omega), skipTatweel_cons_of_ne _ _ (by omega),
        skipTatweel_cons_of_ne _ _ (by omega)]
    · simp only [List.cons_append, List.nil_append]
      rw [skipTatweel_cons_of_ne _ _ (by omega), skipTatweel_cons_of_ne _ _ (by omega),
        skipTatweel_cons_of_ne _ _ (by omega), skipTatweel_cons_of_ne _ _ (by omega)]

theorem skipTatweel_encodeAll (cps : List Nat) :
    TextNormalizer.skipTatweel (utf8EncodeAll cps)
      = utf8EncodeAll (cps.filter (fun c => decide (c ≠ tatweel))) := by
  induction cps with
  | nil => rfl
  | cons c cs ih =>
    rw [utf8EncodeAll, skipTatweel_encode_append, ih]
    by_cases hc : c = tatweel
    · simp [hc]
    · simp [hc, utf8EncodeAll]

/-! ## Adjacent `D9 80` pairs -/

theorem pair_infix_cons (b : Nat) (l : List Nat) :
    [0xD9, 0x80] <:+: (b :: l)
      ↔ (b = 0xD9 ∧ l.head? = some 0x80) ∨ [0xD9, 0x80] <:+: l := by
  rw [List.infix_cons_iff]
  cases l with
  | nil => simp
  | cons b1 t =>
    simp only [List.cons_prefix_cons, List.nil_prefix, and_true, List.head?_cons,
      Option.some.injEq]
    constructor
    · rintro (⟨h0, h1⟩ | h)
      · exact Or.inl ⟨h0.symm, h1.symm⟩
      · exact Or.inr h
    · rintro (⟨h0, h1⟩ | h)
      · exact Or.inl ⟨h0.symm, h1.symm⟩
      · exact Or.inr h

theorem skipTatweel_of_not_infix (x : List Nat) (h : ¬ [0xD9, 0x80] <:+: x) :
    TextNormalizer.skipTatweel x = x := by
  induction x with
  | nil => rfl
  | cons b l ih =>
    rw [pair_infix_cons] at h
    rw [skipTatweel_cons_of_ne b l (fun hp => h (Or.inl hp)), ih (fun hi => h (Or.inr hi))]

theorem skipTatweel_sublist (x : List Nat) :
    (TextNormalizer.skipTatweel x).Sublist x := by
  induction x using TextNormalizer.skipTatweel.induct with
  | case1 => simp [TextNormalizer.skipTatweel]
  | case2 b => simp [TextNormalizer.skipTatweel]
  | case3 b0 b1 rest hp ih =>
    simp only [TextNormalizer.skipTatweel, if_pos hp]
    exact (ih.cons b1).cons b0
  | case4 b0 b1 rest hp ih =>
    simp only [TextNormalizer.skipTatweel, if_neg hp]
    exact ih.cons₂ b0

theorem not_infix_of_skipTatweel_eq (x : List Nat) (h : TextNormalizer.skipTatweel x = x) :
    ¬ [0xD9, 0x80] <:+: x := by
  induction x using TextNormalizer.skipTatweel.induct with
  | case1 => simp
  | case2 b => simp [pair_infix_cons]
  | case3 b0 b1 rest hp ih =>
    simp only [TextNormalizer.skipTatweel, if_pos hp] at h
    have hl := (skipTatweel_sublist rest).length_le
    rw [h] at hl
    simp only [List.length_cons] at hl
    omega
  | case4 b0 b1 rest hp ih =>
    simp only [TextNormalizer.skipTatweel, if_neg hp, List.cons.injEq, true_and] at h
    rw [pair_infix_cons]
    rintro (hq | hq)
    · exact hp (by simpa using hq)
    · exact ih h hq

theorem filter_ne_tatweel_scalar (cps : List Nat) (h : ∀ c ∈ cps, isScalar c) :
    ∀ c ∈ cps.filter (fun c => decide (c ≠ tatweel)), isScalar c :=
  fun c hc => h c (List.mem_filter.1 hc).1

/-- On well-formed UTF-8 the scan works code point by code point: the output
is the encoding of the input's code points without the tatweels, and it
decodes to exactly those. -/
theorem normalize_of_decode (x cps : List Nat) (h : utf8Decode x = some cps) :
    TextNormalizer.normalize x = utf8EncodeAll (cps.filter (fun c => decide (c ≠ tatweel)))
      ∧ utf8Decode (TextNormalizer.normalize x)
          = some (cps.filter (fun c => decide (c ≠ tatweel))) := by
  obtain ⟨e, s⟩ := utf8Decode_sound x cps h
  have h1 : TextNormalizer.normalize x
      = utf8EncodeAll (cps.filter (fun c => decide (c ≠ tatweel))) := by
    rw [normalize_eq_skipTatweel, ← e, skipTatweel_encodeAll]
  exact ⟨h1, by rw [h1]; exact utf8Decode_encodeAll _ (filter_ne_tatweel_scalar cps s)⟩

/-! ## Reads stay in bounds -/

theorem readAt_of_lt (input : List Nat) (i : Nat) (h : i < input.length) :
    TextNormalizer.readAt input i = Except.ok input[i] := by
  simp [TextNormalizer.readAt, List.getElem?_eq_getElem h]

theorem normalizeLoopChecked_eq (input : List Nat) (i : Nat) (result : List Nat) :
    TextNormalizer.normalizeLoopChecked input i result
      = Except.ok (TextNormalizer.normalizeLoop input i result) := by
  induction i, result using TextNormalizer.normalizeLoop.induct input with
  | case1 i result h h1 hp ih =>
    rw [TextNormalizer.normalizeLoopChecked, TextNormalizer.normalizeLoop, if_pos h, if_pos h1,
      dif_pos h, dif_pos h1, if_pos hp, readAt_of_lt input i h, readAt_of_lt input (i + 1) h1]
    simp only [if_pos hp.1, if_pos hp.2]
    exact ih
  | case2 i result h h1 hp ih =>
    rw [TextNormalizer.normalizeLoopChecked, TextNormalizer.normalizeLoop, if_pos h, if_pos h1,
      dif_pos h, dif_pos h1, if_neg hp, readAt_of_lt input i h, readAt_of_lt input (i + 1) h1]
    by_cases h0 : input[i] = 0xD9
    · have h8 : ¬ input[i + 1] = 0x80 := fun h8 => hp ⟨h0, h8⟩
      simp only [if_pos h0, if_neg h8]
      exact ih
    · simp only [if_neg h0]
      exact ih
  | case3 i result h h1 ih =>
    rw [TextNormalizer.normalizeLoopChecked, TextNormalizer.normalizeLoop, if_pos h, if_neg h1,
      dif_pos h, dif_neg h1, readAt_of_lt input i h]
    exact ih
  | case4 i result h =>
    rw [TextNormalizer.normalizeLoopChecked, TextNormalizer.normalizeLoop, if_neg h, dif_neg h]

theorem skipTatweel_erased (x : List Nat) :
    TextNormalizer.TatweelErased x (TextNormalizer.skipTatweel x) := by
  induction x using TextNormalizer.skipTatweel.induct with
  | case1 => exact TextNormalizer.TatweelErased.done
  | case2 b =>
    exact TextNormalizer.TatweelErased.keep b TextNormalizer.TatweelErased.done
  | case3 b0 b1 rest hp ih =>
    simp only [TextNormalizer.skipTatweel, if_pos hp]
    rw [hp.1, hp.2]
    exact TextNormalizer.TatweelErased.skip ih
  | case4 b0 b1 rest hp ih =>
    simp only [TextNormalizer.skipTatweel, if_neg hp]
    exact TextNormalizer.TatweelErased.keep b0 ih

/-! ## The contract of `normalize` -/

/-- C1: for every well-formed UTF-8 input, the output of `normalize` has no
adjacent byte pair `D9 80`, and read as UTF-8 it contains no code point
U+0640. -/
theorem normalize_output_has_no_tatweel (x cps : List Nat) (h : utf8Decode x = some cps) :
    ¬ [0xD9, 0x80] <:+: TextNormalizer.normalize x
      ∧ ∃ out, utf8Decode (TextNormalizer.normalize x) = some out ∧ tatweel ∉ out := by
  obtain ⟨h1, h2⟩ := normalize_of_decode x cps h
  refine ⟨?_, _, h2, ?_⟩
  · apply not_infix_of_skipTatweel_eq
    rw [h1, skipTatweel_encodeAll, List.filter_filter]
    simp
  · intro hm
    have := (List.mem_filter.1 hm).2
    simp at this

/-- Instance of C1 at the bytes of U+0628 U+0640 U+0631. -/
theorem normalize_output_has_no_tatweel_witness :
    utf8Decode [0xD8, 0xA8, 0xD9, 0x80, 0xD8, 0xB1] = some [0x628, 0x640, 0x631]
      ∧ (¬ [0xD9, 0x80] <:+: TextNormalizer.normalize [0xD8, 0xA8, 0xD9, 0x80, 0xD8, 0xB1]
        ∧ ∃ out, utf8Decode (TextNormalizer.normalize [0xD8, 0xA8, 0xD9, 0x80, 0xD8, 0xB1])
            = some out ∧ tatweel ∉ out) :=
  ⟨by decide,
    normalize_output_has_no_tatweel [0xD8, 0xA8, 0xD9, 0x80, 0xD8, 0xB1] [0x628, 0x640, 0x631] (by decide)⟩

/-- C2: for every well-formed UTF-8 input, the output of `normalize` is
byte for byte the UTF-8 encoding of the input's code points with every U+0640
removed and every other code point kept, in the original order. -/
theorem normalize_eq_encode_without_tatweel (x cps : List Nat)
    (h : utf8Decode x = some cps) :
    TextNormalizer.normalize x
      = utf8EncodeAll (cps.filter (fun c => decide (c ≠ tatweel))) :=
  (normalize_of_decode x cps h).1

/-- Instance of C2: `normalize (D8 A8 D9 80 D8 B1) = D8 A8 D8 B1`. -/
theorem normalize_eq_encode_without_tatweel_witness :
    utf8Decode [0xD8, 0xA8, 0xD9, 0x80, 0xD8, 0xB1] = some [0x628, 0x640, 0x631]
      ∧ TextNormalizer.normalize [0xD8, 0xA8, 0xD9, 0x80, 0xD8, 0xB1]
          = [0xD8, 0xA8, 0xD8, 0xB1] :=
  ⟨by decide,
    (normalize_eq_encode_without_tatweel [0xD8, 0xA8, 0xD9, 0x80, 0xD8, 0xB1] [0x628, 0x640, 0x631]
      (by decide)).trans (by decide)⟩

/-- C3: `normalize` is idempotent on well-formed UTF-8:
`normalize (normalize x) = normalize x`. -/
theorem normalize_idempotent (x cps : List Nat) (h : utf8Decode x = some cps) :
    TextNormalizer.normalize (TextNormalizer.normalize x) = TextNormalizer.normalize x := by
  obtain ⟨h1, h2⟩ := normalize_of_decode x cps h
  rw [(normalize_of_decode _ _ h2).1, List.filter_filter, h1]
  simp

/-- Instance of C3 at the bytes of U+0628 U+0640 U+0631. -/
theorem normalize_idempotent_witness :
    utf8Decode [0xD8, 0xA8, 0xD9, 0x80, 0xD8, 0xB1] = some [0x628, 0x640, 0x631]
      ∧ TextNormalizer.normalize (TextNormalizer.normalize [0xD8, 0xA8, 0xD9, 0x80, 0xD8, 0xB1])
          = TextNormalizer.normalize [0xD8, 0xA8, 0xD9, 0x80, 0xD8, 0xB1] :=
  ⟨by decide, normalize_idempotent [0xD8, 0xA8, 0xD9, 0x80, 0xD8, 0xB1] [0x628, 0x640, 0x631] (by decide)⟩

/-- C4: an input with no adjacent byte pair `D9 80` (the empty string
included) is returned unchanged, byte for byte. -/
theorem normalize_eq_self_of_no_tatweel (x : List Nat) (h : ¬ [0xD9, 0x80] <:+: x) :
    TextNormalizer.normalize x = x := by
  rw [normalize_eq_skipTatweel]
  exact skipTatweel_of_not_infix x h

/-- Instances of C4: the empty string and `D8 A8 D8 B3 D9 85`. -/
theorem normalize_eq_self_of_no_tatweel_witness :
    (¬ [0xD9, 0x80] <:+: ([] : List Nat) ∧ TextNormalizer.normalize [] = [])
      ∧ (¬ [0xD9, 0x80] <:+: [0xD8, 0xA8, 0xD8, 0xB3, 0xD9, 0x85]
        ∧ TextNormalizer.normalize [0xD8, 0xA8, 0xD8, 0xB3, 0xD9, 0x85]
            = [0xD8, 0xA8, 0xD8, 0xB3, 0xD9, 0x85]) :=
  ⟨⟨by decide, normalize_eq_self_of_no_tatweel [] (by decide)⟩,
    ⟨by decide,
      normalize_eq_self_of_no_tatweel [0xD8, 0xA8, 0xD8, 0xB3, 0xD9, 0x85] (by decide)⟩⟩

/-- C5: for every well-formed UTF-8 input, the output of `normalize` has at
most as many code points as the input. -/
theorem normalize_codepoint_count_le (x cps : List Nat) (h : utf8Decode x = some cps) :
    ∃ out, utf8Decode (TextNormalizer.normalize x) = some out ∧ out.length ≤ cps.length :=
  ⟨_, (normalize_of_decode x cps h).2, List.length_filter_le _ _⟩

/-- Instance of C5 at the bytes of U+0628 U+0640 U+0631. -/
theorem normalize_codepoint_count_le_witness :
    utf8Decode [0xD8, 0xA8, 0xD9, 0x80, 0xD8, 0xB1] = some [0x628, 0x640, 0x631]
      ∧ ∃ out, utf8Decode (TextNormalizer.normalize [0xD8, 0xA8, 0xD9, 0x80, 0xD8, 0xB1])
          = some out ∧ out.length ≤ [0x628, 0x640, 0x631].length :=
  ⟨by decide,
    normalize_codepoint_count_le [0xD8, 0xA8, 0xD9, 0x80, 0xD8, 0xB1] [0x628, 0x640, 0x631] (by decide)⟩

/-- C6: the output of `normalize` on well-formed UTF-8 is well-formed UTF-8
again; it decodes to the input's code points other than U+0640, so no other
code point's encoding is split or merged. -/
theorem normalize_preserves_well_formed (x cps : List Nat) (h : utf8Decode x = some cps) :
    utf8Decode (TextNormalizer.normalize x)
      = some (cps.filter (fun c => decide (c ≠ tatweel))) :=
  (normalize_of_decode x cps h).2

/-- Instance of C6 with one, two, three and four byte sequences around a
tatweel: U+0041 U+0640 U+20AC U+1F600. -/
theorem normalize_preserves_well_formed_witness :
    utf8Decode [0x41, 0xD9, 0x80, 0xE2, 0x82, 0xAC, 0xF0, 0x9F, 0x98, 0x80]
        = some [0x41, 0x640, 0x20AC, 0x1F600]
      ∧ utf8Decode
          (TextNormalizer.normalize [0x41, 0xD9, 0x80, 0xE2, 0x82, 0xAC, 0xF0, 0x9F, 0x98, 0x80])
          = some [0x41, 0x20AC, 0x1F600] :=
  ⟨by decide,
    (normalize_preserves_well_formed [0x41, 0xD9, 0x80, 0xE2, 0x82, 0xAC, 0xF0, 0x9F, 0x98, 0x80]
      [0x41, 0x640, 0x20AC, 0x1F600] (by decide)).trans (by decide)⟩

/-- C7: on every byte string, well-formed or not, every read of `normalize`
is in bounds and a result is returned (the bounds-checked loop never
faults and agrees with `normalize`); the result is the input with adjacent
`D9 80` pairs erased and every other byte kept in order, so it is a
subsequence of the input. -/
theorem normalize_never_faults (x : List Nat) :
    TextNormalizer.normalizeChecked x = Except.ok (TextNormalizer.normalize x)
      ∧ TextNormalizer.TatweelErased x (TextNormalizer.normalize x)
      ∧ (TextNormalizer.normalize x).Sublist x := by
  refine ⟨normalizeLoopChecked_eq x 0 [], ?_, ?_⟩
  · rw [normalize_eq_skipTatweel]
    exact skipTatweel_erased x
  · rw [normalize_eq_skipTatweel]
    exact skipTatweel_sublist x

/-- C8 (what the code does at the decomposed pair): the well-formed input
U+0627 U+0654 comes out of `normalize` unchanged, not as its NFC composition
U+0623. -/
theorem normalize_keeps_decomposed_hamza :
    utf8Decode [0xD8, 0xA7, 0xD9, 0x94] = some [0x627, 0x654]
      ∧ TextNormalizer.normalize [0xD8, 0xA7, 0xD9, 0x94] = [0xD8, 0xA7, 0xD9, 0x94]
      ∧ TextNormalizer.normalize [0xD8, 0xA7, 0xD9, 0x94] ≠ utf8EncodeAll [0x623] := by
  have e : TextNormalizer.normalize [0xD8, 0xA7, 0xD9, 0x94] = [0xD8, 0xA7, 0xD9, 0x94] := by
    rw [normalize_eq_skipTatweel]
    decide
  refine ⟨by decide, e, ?_⟩
  rw [e]
  decide

/-- C9 (what the code does at a presentation form): the well-formed input
U+FE8F, a code point of Arabic Presentation Forms-B, comes out of `normalize`
unchanged, not as U+0628. -/
theorem normalize_keeps_presentation_form :
    utf8Decode [0xEF, 0xBA, 0x8F] = some [0xFE8F]
      ∧ isPresentationForm 0xFE8F = true
      ∧ TextNormalizer.normalize [0xEF, 0xBA, 0x8F] = [0xEF, 0xBA, 0x8F]
      ∧ TextNormalizer.normalize [0xEF, 0xBA, 0x8F] ≠ utf8EncodeAll [0x628] := by
  have e : TextNormalizer.normalize [0xEF, 0xBA, 0x8F] = [0xEF, 0xBA, 0x8F] := by
    rw [normalize_eq_skipTatweel]
    decide
  refine ⟨by decide, by decide, e, ?_⟩
  rw [e]
  decide

theorem isDigit_and_ne_tatweel (c : Nat) :
    (isDigit c && decide (c ≠ tatweel)) = isDigit c := by
  by_cases hc : c = tatweel
  · subst hc
    decide
  · simp [hc]

/-- C10: digits pass through `normalize` unchanged: for every well-formed
UTF-8 input, the digit code points (ASCII and Arabic-Indic) of the output are
those of the input, in the same order. -/
theorem normalize_preserves_digits (x cps : List Nat) (h : utf8Decode x = some cps) :
    ∃ out, utf8Decode (TextNormalizer.normalize x) = some out
      ∧ out.filter isDigit = cps.filter isDigit := by
  refine ⟨_, (normalize_of_decode x cps h).2, ?_⟩
  rw [List.filter_filter]
  exact List.filter_congr (fun c _ => isDigit_and_ne_tatweel c)

/-- Instance of C10: U+0031, a tatweel, the Arabic-Indic digit U+0663 (bytes
`D9 A3`, same lead byte as the tatweel) and U+0628. -/
theorem normalize_preserves_digits_witness :
    utf8Decode [0x31, 0xD9, 0x80, 0xD9, 0xA3, 0xD8, 0xA8] = some [0x31, 0x640, 0x663, 0x628]
      ∧ ∃ out, utf8Decode (TextNormalizer.normalize [0x31, 0xD9, 0x80, 0xD9, 0xA3, 0xD8, 0xA8])
          = some out
        ∧ out.filter isDigit = [0x31, 0x640, 0x663, 0x628].filter isDigit :=
  ⟨by decide,
    normalize_preserves_digits [0x31, 0xD9, 0x80, 0xD9, 0xA3, 0xD8, 0xA8]
      [0x31, 0x640, 0x663, 0x628] (by decide)⟩

/-! ## The converter: a combining mark with no base letter -/

theorem tokenizeFrom_mark_first (classify : Nat → GraphemeToPhoneme.CharClass)
    (run : List Nat) (d : Nat) (rest : List Nat)
    (hrun : ∀ m ∈ run, classify m = GraphemeToPhoneme.CharClass.diacritic)
    (hd : classify d = GraphemeToPhoneme.CharClass.diacritic) :
    GraphemeToPhoneme.tokenizeFrom classify none (run ++ d :: rest)
      = Except.error GraphemeToPhoneme.ConvertError.MalformedInputError := by
  cases run with
  | nil => simp [GraphemeToPhoneme.tokenizeFrom, GraphemeToPhoneme.attachMark, hd]
  | cons m ms =>
    have hm := hrun m (List.mem_cons_self m ms)
    simp [GraphemeToPhoneme.tokenizeFrom, GraphemeToPhoneme.attachMark, hm]

theorem tokenizeFrom_error_append (classify : Nat → GraphemeToPhoneme.CharClass)
    (e : GraphemeToPhoneme.ConvertError) (s : List Nat)
    (hs : ∀ cur, GraphemeToPhoneme.tokenizeFrom classify cur s = Except.error e)
    (front : List Nat) :
    ∀ cur, GraphemeToPhoneme.tokenizeFrom classify cur (front ++ s) = Except.error e := by
  induction front with
  | nil => exact hs
  | cons c cs ih =>
    intro cur
    rw [List.cons_append, GraphemeToPhoneme.tokenizeFrom]
    cases hc : classify c with
    | diacritic =>
      cases cur with
      | none => cases e; rfl
      | some bm => exact ih _
    | baseLetter => simp only [ih]
    | other => simp only [ih]

/-- C11: in the model of `convert` taken from the specification, every text
that contains a combining mark with no base letter before it (at the start
of the text, or after a code point that is no letter, possibly behind other
marks) makes `convert` fail with `MalformedInputError`, whatever the later
passes do and whatever `pausal` is; the result is the error and holds no
phoneme sequence, partial or not. -/
theorem convert_fails_on_orphan_diacritic {Token : Type}
    (classify : Nat → GraphemeToPhoneme.CharClass)
    (passes : List GraphemeToPhoneme.GraphemicUnit → Bool
      → Except GraphemeToPhoneme.ConvertError (List Token))
    (text : List Nat) (pausal : Bool)
    (h : GraphemeToPhoneme.OrphanDiacritic classify text) :
    GraphemeToPhoneme.convert classify passes text pausal
        = Except.error GraphemeToPhoneme.ConvertError.MalformedInputError
      ∧ ∀ tokens, GraphemeToPhoneme.convert classify passes text pausal ≠ Except.ok tokens := by
  obtain ⟨before, run, d, rest, rfl, hrun, hd, hlast⟩ := h
  have hm := tokenizeFrom_mark_first classify run d rest hrun hd
  have ht : GraphemeToPhoneme.tokenizeFrom classify none (before ++ run ++ d :: rest)
      = Except.error GraphemeToPhoneme.ConvertError.MalformedInputError := by
    rcases List.eq_nil_or_concat before with rfl | ⟨front, p, rfl⟩
    · simpa using hm
    · have hp : classify p = GraphemeToPhoneme.CharClass.other :=
        hlast p (by simp)
      have hs : ∀ cur, GraphemeToPhoneme.tokenizeFrom classify cur (p :: (run ++ d :: rest))
          = Except.error GraphemeToPhoneme.ConvertError.MalformedInputError := by
        intro cur
        rw [GraphemeToPhoneme.tokenizeFrom]
        simp only [hp, hm]
      have := tokenizeFrom_error_append classify _ _ hs front none
      simpa [List.append_assoc] using this
  have hc : GraphemeToPhoneme.convert classify passes (before ++ run ++ d :: rest) pausal
      = Except.error GraphemeToPhoneme.ConvertError.MalformedInputError := by
    rw [GraphemeToPhoneme.convert, ht]
  refine ⟨hc, ?_⟩
  intro tokens ho
  rw [hc] at ho
  cases ho

/-- Instance of C11 with the Arabic letter classes: a fatha (U+064E) after a
space, behind the word U+0628 U+064E; the later passes here would accept
anything. -/
theorem convert_fails_on_orphan_diacritic_witness :
    GraphemeToPhoneme.OrphanDiacritic GraphemeToPhoneme.arabicClass
        [0x628, 0x64E, 0x20, 0x64E, 0x631]
      ∧ (GraphemeToPhoneme.convert GraphemeToPhoneme.arabicClass
            (fun _ _ => Except.ok ([] : List Nat)) [0x628, 0x64E, 0x20, 0x64E, 0x631] false
          = Except.error GraphemeToPhoneme.ConvertError.MalformedInputError
        ∧ ∀ tokens, GraphemeToPhoneme.convert GraphemeToPhoneme.arabicClass
            (fun _ _ => Except.ok ([] : List Nat)) [0x628, 0x64E, 0x20, 0x64E, 0x631] false
          ≠ Except.ok tokens) :=
  have h : GraphemeToPhoneme.OrphanDiacritic GraphemeToPhoneme.arabicClass
      [0x628, 0x64E, 0x20, 0x64E, 0x631] :=
    ⟨[0x628, 0x64E, 0x20], [], 0x64E, [0x631], by decide, by decide, by decide, by decide⟩
  ⟨h, convert_fails_on_orphan_diacritic GraphemeToPhoneme.arabicClass
    (fun _ _ => Except.ok ([] : List Nat)) [0x628, 0x64E, 0x20, 0x64E, 0x631] false h⟩

/-! ## Concatenation, ill-formed input, and the length of the output -/

theorem skipTatweel_append (a b : List Nat)
    (h : a.getLast? ≠ some 0xD9 ∨ b.head? ≠ some 0x80) :
    TextNormalizer.skipTatweel (a ++ b)
      = TextNormalizer.skipTatweel a ++ TextNormalizer.skipTatweel b := by
  induction a using TextNormalizer.skipTatweel.induct with
  | case1 => simp [TextNormalizer.skipTatweel]
  | case2 x =>
    have hx : ¬ (x = 0xD9 ∧ b.head? = some 0x80) := by
      rintro ⟨h0, h1⟩
      rcases h with h | h
      · exact h (by simp [h0])
      · exact h h1
    simp [TextNormalizer.skipTatweel, skipTatweel_cons_of_ne x b hx]
  | case3 b0 b1 rest hp ih =>
    have hr : rest.getLast? ≠ some 0xD9 ∨ b.head? ≠ some 0x80 := by
      rcases h with h | h
      · cases rest with
        | nil => exact Or.inl (by simp)
        | cons r rs => exact Or.inl (by simpa [List.getLast?_cons_cons] using h)
      · exact Or.inr h
    simp only [List.cons_append, TextNormalizer.skipTatweel, if_pos hp]
    exact ih hr
  | case4 b0 b1 rest hp ih =>
    have hr : (b1 :: rest).getLast? ≠ some 0xD9 ∨ b.head? ≠ some 0x80 := by
      rcases h with h | h
      · exact Or.inl (by simpa [List.getLast?_cons_cons] using h)
      · exact Or.inr h
    have e := ih hr
    have hp1 : ¬ (b0 = 0xD9 ∧ (b1 :: rest ++ b).head? = some 0x80) := by simpa using hp
    have hp2 : ¬ (b0 = 0xD9 ∧ (b1 :: rest).head? = some 0x80) := by simpa using hp
    rw [List.cons_append, skipTatweel_cons_of_ne b0 _ hp1, e,
      skipTatweel_cons_of_ne b0 _ hp2, List.cons_append]

theorem utf8Decode_head_ne_cont (b cb : List Nat) (h : utf8Decode b = some cb) :
    b.head? ≠ some 0x80 := by
  intro hb
  rcases b with _ | ⟨b0, t⟩
  · simp at hb
  · simp only [List.head?_cons, Option.some.injEq] at hb
    subst hb
    rcases t with _ | ⟨b1, _ | ⟨b2, _ | ⟨b3, t3⟩⟩⟩ <;>
      (rw [utf8Decode.eq_def] at h; simp at h)

/-- C12: `normalize` distributes over concatenation unless the split runs
through a tatweel: if `a` does not end in the byte `D9` or `b` does not begin
with the byte `80`, then `normalize (a ++ b) = normalize a ++ normalize b`; in
particular this holds whenever `a` and `b` are both well-formed UTF-8. -/
theorem normalize_append :
    (∀ a b : List Nat, (a.getLast? ≠ some 0xD9 ∨ b.head? ≠ some 0x80) →
        TextNormalizer.normalize (a ++ b)
          = TextNormalizer.normalize a ++ TextNormalizer.normalize b)
      ∧ (∀ a b ca cb : List Nat, utf8Decode a = some ca → utf8Decode b = some cb →
        TextNormalizer.normalize (a ++ b)
          = TextNormalizer.normalize a ++ TextNormalizer.normalize b) := by
  refine ⟨?_, ?_⟩
  · intro a b h
    simp only [normalize_eq_skipTatweel]
    exact skipTatweel_append a b h
  · intro a b ca cb _ hb
    simp only [normalize_eq_skipTatweel]
    exact skipTatweel_append a b (Or.inr (utf8Decode_head_ne_cont b cb hb))

/-- Instances of C12: a split of ill-formed bytes, after a `D9` but not before
an `80` (`D9 | D9 80`), and a split of the bytes of U+0628 U+0640 | U+0640
U+0631 into two well-formed halves. -/
theorem normalize_append_witness :
    (([0xD9] : List Nat).getLast? ≠ some 0xD9 ∨ ([0xD9, 0x80] : List Nat).head? ≠ some 0x80)
      ∧ TextNormalizer.normalize ([0xD9] ++ [0xD9, 0x80])
          = TextNormalizer.normalize [0xD9] ++ TextNormalizer.normalize [0xD9, 0x80]
      ∧ utf8Decode [0xD8, 0xA8, 0xD9, 0x80] = some [0x628, 0x640]
      ∧ utf8Decode [0xD9, 0x80, 0xD8, 0xB1] = some [0x640, 0x631]
      ∧ TextNormalizer.normalize ([0xD8, 0xA8, 0xD9, 0x80] ++ [0xD9, 0x80, 0xD8, 0xB1])
          = TextNormalizer.normalize [0xD8, 0xA8, 0xD9, 0x80]
            ++ TextNormalizer.normalize [0xD9, 0x80, 0xD8, 0xB1] :=
  ⟨by decide, normalize_append.1 [0xD9] [0xD9, 0x80] (by decide), by decide, by decide,
    normalize_append.2 [0xD8, 0xA8, 0xD9, 0x80] [0xD9, 0x80, 0xD8, 0xB1] [0x628, 0x640]
      [0x640, 0x631] (by decide) (by decide)⟩

/-- C13: well-formedness cannot be dropped from tatweel-freedom and
idempotence: the ill-formed byte string `D9 D9 80 80` comes out of the single
left-to-right pass as `D9 80`, which contains an adjacent `D9 80` pair, and a
second pass gives the empty string, so `normalize (normalize x)` differs from
`normalize x`. -/
theorem normalize_ill_formed_not_idempotent :
    utf8Decode [0xD9, 0xD9, 0x80, 0x80] = none
      ∧ TextNormalizer.normalize [0xD9, 0xD9, 0x80, 0x80] = [0xD9, 0x80]
      ∧ [0xD9, 0x80] <:+: TextNormalizer.normalize [0xD9, 0xD9, 0x80, 0x80]
      ∧ TextNormalizer.normalize (TextNormalizer.normalize [0xD9, 0xD9, 0x80, 0x80]) = []
      ∧ TextNormalizer.normalize (TextNormalizer.normalize [0xD9, 0xD9, 0x80, 0x80])
          ≠ TextNormalizer.normalize [0xD9, 0xD9, 0x80, 0x80] := by
  have e1 : TextNormalizer.normalize [0xD9, 0xD9, 0x80, 0x80] = [0xD9, 0x80] := by
    rw [normalize_eq_skipTatweel]
    decide
  have e2 : TextNormalizer.normalize [0xD9, 0x80] = [] := by
    rw [normalize_eq_skipTatweel]
    decide
  refine ⟨by decide, e1, ?_, ?_, ?_⟩
  · rw [e1]
  · rw [e1, e2]
  · rw [e1, e2]
    decide

theorem pairCount_cons (b : Nat) (l : List Nat) :
    pairCount (b :: l) = (if b = 0xD9 ∧ l.head? = some 0x80 then 1 else 0) + pairCount l := by
  unfold pairCount
  rw [List.length_cons, List.range_succ_eq_map, List.countP_cons, List.countP_map]
  have e : ((fun i => decide ((b :: l)[i]? = some 0xD9 ∧ (b :: l)[i + 1]? = some 0x80))
      ∘ Nat.succ) = fun i => decide (l[i]? = some 0xD9 ∧ l[i + 1]? = some 0x80) := by
    funext i
    simp
  rw [e]
  cases l with
  | nil => simp
  | cons b1 t =>
    simp only [List.head?_cons, Option.some.injEq, List.countP_cons, List.getElem?_cons_zero,
      List.getElem?_cons_succ, Nat.zero_add, decide_eq_true_eq, List.length_cons]
    exact Nat.add_comm _ _

theorem skipTatweel_length (x : List Nat) :
    (TextNormalizer.skipTatweel x).length + 2 * pairCount x = x.length := by
  induction x using TextNormalizer.skipTatweel.induct with
  | case1 => simp [TextNormalizer.skipTatweel, pairCount]
  | case2 b => simp [TextNormalizer.skipTatweel, pairCount_cons, pairCount]
  | case3 b0 b1 rest hp ih =>
    have h1 : ¬ (b1 = 0xD9 ∧ rest.head? = some 0x80) := by
      rintro ⟨h, _⟩
      omega
    simp only [TextNormalizer.skipTatweel, if_pos hp, pairCount_cons b0, pairCount_cons b1,
      List.head?_cons, Option.some.injEq, if_neg h1, List.length_cons]
    omega
  | case4 b0 b1 rest hp ih =>
    simp only [TextNormalizer.skipTatweel, if_neg hp, pairCount_cons b0,
      List.head?_cons, Option.some.injEq, List.length_cons] at ih ⊢
    omega

/-- C14: for every byte string the byte length of the output of `normalize`
is the length of the input minus twice the number of positions `i` with
`x[i] = D9` and `x[i + 1] = 80`; hence on well-formed UTF-8 the code point
count drops by exactly the number of U+0640 code points. -/
theorem normalize_length (x : List Nat) :
    (TextNormalizer.normalize x).length = x.length - 2 * pairCount x
      ∧ 2 * pairCount x ≤ x.length
      ∧ ∀ cps, utf8Decode x = some cps →
          ∃ out, utf8Decode (TextNormalizer.normalize x) = some out
            ∧ out.length = cps.length - cps.count tatweel
            ∧ cps.count tatweel ≤ cps.length := by
  have h := skipTatweel_length x
  rw [normalize_eq_skipTatweel]
  refine ⟨by omega, by omega, ?_⟩
  intro cps hx
  have hd := (normalize_of_decode x cps hx).2
  rw [normalize_eq_skipTatweel] at hd
  refine ⟨_, hd, ?_, List.count_le_length tatweel cps⟩
  have hc := List.length_eq_countP_add_countP (fun c => decide (c ≠ tatweel)) cps
  have e1 : (cps.filter (fun c => decide (c ≠ tatweel))).length
      = cps.countP (fun c => decide (c ≠ tatweel)) := (List.countP_eq_length_filter _ _).symm
  have e2 : cps.countP (fun c => ¬ (decide (c ≠ tatweel)) = true) = cps.count tatweel := by
    rw [List.count]
    apply List.countP_congr
    intro c _
    by_cases hc : c = tatweel
    · simp [hc]
    · have hc1 : ¬ tatweel = c := fun h => hc h.symm
      simp [hc, hc1]
  omega

/-- Instance of C14 at the ill-formed bytes `D9 D9 80 80` (one position, two
bytes fewer) and at the bytes of U+0628 U+0640 U+0640 U+0631 (two tatweels,
two code points fewer). -/
theorem normalize_length_witness :
    (TextNormalizer.normalize [0xD9, 0xD9, 0x80, 0x80]).length = 4 - 2 * 1
      ∧ utf8Decode [0xD8, 0xA8, 0xD9, 0x80, 0xD9, 0x80, 0xD8, 0xB1]
          = some [0x628, 0x640, 0x640, 0x631]
      ∧ ∃ out, utf8Decode
            (TextNormalizer.normalize [0xD8, 0xA8, 0xD9, 0x80, 0xD9, 0x80, 0xD8, 0xB1])
            = some out
          ∧ out.length = [0x628, 0x640, 0x640, 0x631].length
              - [0x628, 0x640, 0x640, 0x631].count tatweel
          ∧ [0x628, 0x640, 0x640, 0x631].count tatweel
              ≤ [0x628, 0x640, 0x640, 0x631].length :=
  ⟨(normalize_length [0xD9, 0xD9, 0x80, 0x80]).1.trans (by decide), by decide,
    (normalize_length [0xD8, 0xA8, 0xD9, 0x80, 0xD9, 0x80, 0xD8, 0xB1]).2.2
      [0x628, 0x640, 0x640, 0x631] (by decide)⟩

end codex
